import Mathlib

/-
  Verification development for the `audio-silence-trimmer` repository
  (`src/index.ts`).  The TypeScript source is shallowly embedded:

  * `node:path` (POSIX flavour) functions used by the source — `dirname`,
    `extname`, `basename`, `join` — are modelled over `String`/`List Char`
    following Node's documented POSIX semantics.
  * The pure builders (`silenceremoveFilter`, `buildOutputPaths`,
    `codecArgsFor`) and the probe-output parser of `getAudioStreamInfo`
    are translated directly.
  * The effectful orchestrator `trimFile` is embedded as a pure function
    over an abstract filesystem (`FS`) together with an `Oracle` that fixes
    the outcome of every external-process invocation and every fallible
    filesystem operation, returning the structured result, the final
    filesystem, and a trace of the performed side effects.
-/

set_option linter.unusedVariables false

namespace AudioTrim

-- Model of node:path (POSIX) as used by src/index.ts ------------------------

/-- Core of `path.dirname` (POSIX): drop trailing slashes, drop the last
component, drop the single separating slash; everything is done on the
reversed character list. -/
def dirnameAux (cs : List Char) : List Char :=
  ((((cs.reverse).dropWhile (· = '/')).dropWhile (· ≠ '/')).drop 1).reverse

/-- Model of `path.dirname` (POSIX), including Node's edge cases for the
root, the double-root `//`, and slash-free inputs. -/
def dirname (p : String) : String :=
  let r := dirnameAux p.data
  if r = [] then (if p.data.head? = some '/' then "/" else ".")
  else if r = ['/'] then "//"
  else String.mk r

/-- Model of `path.basename` (POSIX) without an extension argument:
the last path component, ignoring trailing slashes. -/
def basename (p : String) : String :=
  String.mk ((((p.data.reverse).dropWhile (· = '/')).takeWhile (· ≠ '/')).reverse)

/-- Model of `path.basename(p, ext)` (POSIX): the plain basename with the
suffix `ext` removed when it is a proper suffix (Node keeps the basename
whole when it equals `ext`). -/
def basename2 (p ext : String) : String :=
  let b := basename p
  if ext ≠ "" ∧ b ≠ ext ∧ ext.data.isSuffixOf b.data then
    String.mk (b.data.take (b.data.length - ext.data.length))
  else b

/-- Model of `path.extname` (POSIX): the part of the last component from its
last dot, except that a dot at the start of the component, a component
equal to `..`, or a dot-free component yield the empty extension. -/
def extname (p : String) : String :=
  let portRev := ((p.data.reverse).dropWhile (· = '/')).takeWhile (· ≠ '/')
  let afterDot := portRev.takeWhile (· ≠ '.')
  if afterDot.length = portRev.length then ""
  else if portRev = ['.', '.'] then ""
  else if afterDot.length + 1 = portRev.length then ""
  else String.mk ('.' :: afterDot.reverse)

/-- Split a character list on a separator character, keeping empty groups —
the semantics of JS `String.prototype.split` with a one-character separator,
also used to model `path.normalize`'s component split. -/
def splitOnChar (sep : Char) : List Char → List (List Char)
  | [] => [[]]
  | c :: rest =>
    match splitOnChar sep rest with
    | [] => [[]]
    | g :: gs => if c = sep then [] :: g :: gs else (c :: g) :: gs

/-- Split a character list on `/`. -/
def splitSlash (cs : List Char) : List (List Char) := splitOnChar '/' cs

/-- One step of Node's `normalizeString`: skip empty and `.` components,
resolve `..` against the accumulator (which is kept reversed). -/
def resolveStep (allowAbove : Bool) (acc : List (List Char)) (part : List Char) :
    List (List Char) :=
  if part = [] ∨ part = ['.'] then acc
  else if part = ['.', '.'] then
    match acc with
    | [] => if allowAbove then [part] else []
    | q :: rest => if q = ['.', '.'] then part :: acc else rest
  else part :: acc

/-- Resolve a component list, keeping leading `..`s only for relative paths
(Node's `allowAboveRoot`).  The result is reversed. -/
def resolveParts (allowAbove : Bool) (parts : List (List Char)) : List (List Char) :=
  parts.foldl (resolveStep allowAbove) []

/-- Interleave `/` between components. -/
def intercalateSlash : List (List Char) → List Char
  | [] => []
  | [g] => g
  | g :: gs => g ++ '/' :: intercalateSlash gs

/-- Model of `path.normalize` (POSIX). -/
def normalize (p : String) : String :=
  if p.data = [] then "." else
  let isAbs := p.data.head? = some '/'
  let trail := p.data.getLast? = some '/'
  let comps := (resolveParts (!isAbs) (splitSlash p.data)).reverse
  if comps = [] then (if isAbs then "/" else if trail then "./" else ".")
  else
    String.mk ((if isAbs then '/' :: intercalateSlash comps else intercalateSlash comps) ++
      (if trail then ['/'] else []))

/-- Model of `path.join(a, b)` (POSIX): skip empty segments, join with `/`,
normalize; an empty join yields `"."`. -/
def join2 (a b : String) : String :=
  if a = "" ∧ b = "" then "."
  else if a = "" then normalize b
  else if b = "" then normalize a
  else normalize (a ++ "/" ++ b)

-- Decimal rendering of Date.now() ------------------------------------------

/-- Little-endian decimal digits of a natural number; structural recursion
on a fuel argument (the number itself bounds the digit count) so that the
function reduces definitionally. -/
def digitsRevGo : Nat → Nat → List Nat
  | 0, n => [n]
  | fuel + 1, n => if n < 10 then [n] else (n % 10) :: digitsRevGo fuel (n / 10)

/-- Little-endian decimal digits of a natural number. -/
def digitsRev (n : Nat) : List Nat := digitsRevGo n n

/-- The character of a decimal digit. -/
def digitChar (d : Nat) : Char := Char.ofNat (48 + d)

/-- Decimal rendering of a natural number: models the JS template
interpolation of `Date.now()` (a JS number holding an integer renders in
plain decimal). -/
def natDec (n : Nat) : String := String.mk (((digitsRev n).map digitChar).reverse)

/-- Decode little-endian digits back to a number (proof device for the
injectivity of the decimal rendering). -/
def undigits (l : List Nat) : Nat := l.foldr (fun d acc => d + 10 * acc) 0

-- Pure builders from src/index.ts -------------------------------------------

/-- `SUPPORTED_EXTS` from the source. -/
def SUPPORTED_EXTS : List String := [".mp3", ".wav", ".ogg"]

/-- Model of `String.prototype.toLowerCase` on the extensions the source
lowercases (ASCII, character by character). -/
def lowerStr (s : String) : String := String.mk (s.data.map Char.toLower)

/-- `silenceremoveFilter` from the source.  The numeric parameters are
taken as the decimal renderings that JS template interpolation produces;
the function itself only concatenates them. -/
def silenceremoveFilter (thresholdDb startSec stopSec : String) : String :=
  let thr := thresholdDb ++ "dB"
  ("silenceremove=start_periods=1:start_duration=" ++ startSec ++
    ":start_threshold=" ++ thr ++ ":") ++
  ("stop_periods=1:stop_duration=" ++ stopSec ++ ":stop_threshold=" ++ thr)

/-- The discriminated union `OutputPaths` from the source. -/
inductive OutputPaths where
  | copy (out : String)
  | inPlace (tmp bak final : String)
deriving DecidableEq, Repr

/-- `buildOutputPaths` from the source; `now` is the value `Date.now()`
returned for this invocation. -/
def buildOutputPaths (inputPath suffix : String) (inPlace : Bool) (now : Nat) :
    OutputPaths :=
  let dir := dirname inputPath
  let ext := extname inputPath
  let base := basename2 inputPath ext
  if inPlace then
    .inPlace (join2 dir (base ++ ".__tmp_" ++ natDec now ++ ext))
             (join2 dir (base ++ ".bak" ++ ext))
             inputPath
  else
    .copy (join2 dir (base ++ suffix ++ ext))

/-- The probe result record of `getAudioStreamInfo`. -/
structure StreamInfo where
  bitrateKbps : Option Int
  bitsPerSample : Option Int
deriving DecidableEq, Repr

/-- `codecArgsFor` from the source.  JS truthiness of `info.bitrateKbps`
is `false` exactly for `null` and `0`; `info.bitsPerSample ?? 16` is
nullish coalescing, so only `null` falls back to 16. -/
def codecArgsFor (ext : String) (info : StreamInfo) : List String :=
  if ext = ".mp3" then
    match info.bitrateKbps with
    | some k =>
      if k ≠ 0 then ["-c:a", "libmp3lame", "-b:a", toString k ++ "k"]
      else ["-c:a", "libmp3lame", "-q:a", "2"]
    | none => ["-c:a", "libmp3lame", "-q:a", "2"]
  else if ext = ".ogg" then
    match info.bitrateKbps with
    | some k =>
      if k ≠ 0 then ["-c:a", "libvorbis", "-b:a", toString k ++ "k"]
      else ["-c:a", "libvorbis", "-q:a", "5"]
    | none => ["-c:a", "libvorbis", "-q:a", "5"]
  else
    let bits := info.bitsPerSample.getD 16
    if bits ≥ 32 then ["-c:a", "pcm_s32le"]
    else if bits ≥ 24 then ["-c:a", "pcm_s24le"]
    else ["-c:a", "pcm_s16le"]

-- The probe-output parser of getAudioStreamInfo ------------------------------

/-- JS whitespace as far as the probe values exercise it. -/
def isJsSpace (c : Char) : Bool := c = ' ' || c = '\t' || c = '\n' || c = '\r'

/-- Model of `Number.parseInt(v, 10)`: skip leading whitespace, optional
sign, then leading decimal digits; `none` models `NaN`.  (JS computes the
value as a double, so inputs beyond `2 ^ 53` lose precision and inputs
beyond the double range give `Infinity`, which the caller's `isFinite`
check discards; the exact-integer model agrees with JS on the sign and
on zero-versus-positive, which is all the callers inspect.) -/
def jsParseInt (s : List Char) : Option Int :=
  let cs := s.dropWhile isJsSpace
  let signed : Bool × List Char :=
    match cs with
    | '-' :: rest => (true, rest)
    | '+' :: rest => (false, rest)
    | _ => (false, cs)
  let ds := signed.2.takeWhile Char.isDigit
  if ds = [] then none
  else
    let v : Nat := ds.foldl (fun acc c => acc * 10 + (c.toNat - 48)) 0
    some (if signed.1 then -(v : Int) else (v : Int))

/-- The lines of the probe's stdout, per `stdout.split(/\r?\n/)`: split on
newlines, then drop the one trailing carriage return the regex would have
consumed with the newline. -/
def probeLines (stdout : String) : List (List Char) :=
  (splitOnChar '\n' stdout.data).map
    (fun l => if l.getLast? = some '\r' then l.dropLast else l)

/-- One iteration of the parsing loop in `getAudioStreamInfo` over one line
(given as its character content): skip empty lines, split on `=`, take the
first part as key and the second as value.  Division is on positive operands
only, where `Int` division is exact floor division; `(bps + 500) / 1000` is
`Math.round(bps / 1000)` for positive `bps`. -/
def parseProbeLine (info : StreamInfo) (line : List Char) : StreamInfo :=
  if line = [] then info
  else
    let parts := splitOnChar '=' line
    let k := parts.headD []
    let v := (parts.drop 1).headD []
    if k = "bit_rate".data then
      match jsParseInt v with
      | some bps =>
        if bps > 0 then { info with bitrateKbps := some ((bps + 500) / 1000) } else info
      | none => info
    else if k = "bits_per_sample".data then
      match jsParseInt v with
      | some bps =>
        if bps > 0 then { info with bitsPerSample := some bps } else info
      | none => info
    else info

/-- The parsing loop of `getAudioStreamInfo` over the whole stdout text. -/
def parseProbeOutput (stdout : String) : StreamInfo :=
  (probeLines stdout).foldl parseProbeLine ⟨none, none⟩

-- The effect model -----------------------------------------------------------

/-- A filesystem entry: a regular file with abstract content, or anything
that is not a regular file (directory, socket, ...). -/
inductive Entry where
  | file (content : Nat)
  | other
deriving DecidableEq, Repr

/-- The abstract filesystem: a partial map from paths to entries. -/
abbrev FS : Type := String → Option Entry

/-- Write (create or overwrite) an entry. -/
def FS.set (fs : FS) (p : String) (e : Option Entry) : FS :=
  fun q => if q = p then e else fs q

/-- A successful `fs.rename src dst`: `dst` now holds what `src` held,
`src` is gone (a rename onto itself is a no-op). -/
def FS.mv (fs : FS) (src dst : String) : FS :=
  fun q => if q = dst then fs src else if q = src then none else fs q

/-- A successful `fs.unlink p`. -/
def FS.del (fs : FS) (p : String) : FS :=
  fun q => if q = p then none else fs q

/-- A rename attempt: it can only succeed when the source exists, and the
oracle flag may force a failure (permissions, cross-device, ...).  A failed
rename leaves the filesystem untouched (atomic-or-untouched). -/
def tryRename (fs : FS) (src dst : String) (flag : Bool) : Bool × FS :=
  if flag && (fs src).isSome then (true, fs.mv src dst) else (false, fs)

/-- An unlink attempt, same flag convention. -/
def tryUnlink (fs : FS) (p : String) (flag : Bool) : Bool × FS :=
  if flag && (fs p).isSome then (true, fs.del p) else (false, fs)

/-- The visible side effects of one `trimFile` run. -/
inductive Event where
  | statOp (p : String)
  | spawnProbe (args : List String)
  | spawnFfmpeg (args : List String)
  | renameOp (src dst : String) (ok : Bool)
  | unlinkOp (p : String) (ok : Bool)
  | existsOp (p : String)
deriving DecidableEq, Repr

/-- `TrimStatus` from the source. -/
inductive TrimStatus where
  | ok
  | skipped
  | error
deriving DecidableEq, Repr

/-- `TrimResult` from the source. -/
structure TrimResult where
  status : TrimStatus
  outputPath : Option String := none
deriving DecidableEq, Repr

/-- `TrimOptions` from the source, with the defaults `trimFile` destructures.
The three numeric options are carried as the decimal renderings JS template
interpolation produces for them (`0.20` renders as `"0.2"`). -/
structure TrimOptions where
  thresholdDb : String := "-45"
  startSeconds : String := "0.05"
  stopSeconds : String := "0.2"
  inPlace : Bool := false
  noBackup : Bool := false
  suffix : String := "_trimmed"
  verbose : Bool := false
deriving Repr

/-- The environment's answers for every fallible external operation one
`trimFile` run can perform.  `probeStdout = none` models any rejection of
the ffprobe invocation (missing binary, crash, non-zero exit);
`ffmpegLeavesPartial` says whether a failed ffmpeg run left a partial file
at its target. -/
structure Oracle where
  statThrows : Bool := false
  probeStdout : Option String := none
  ffmpegOk : Bool := true
  ffmpegLeavesPartial : Bool := false
  partialContent : Nat := 0
  outContent : Nat := 1
  unlinkTmpAfterFfmpegFailOk : Bool := true
  renameToBakOk : Bool := true
  unlinkTmpAfterBakFailOk : Bool := true
  unlinkOriginalOk : Bool := true
  unlinkTmpAfterUnlinkFailOk : Bool := true
  renameTmpToFinalOk : Bool := true
  renameBakRestoreOk : Bool := true
deriving Repr

/-- The ffprobe argument list of `getAudioStreamInfo`. -/
def probeArgs (file : String) : List String :=
  ["-v", "error", "-select_streams", "a:0", "-show_entries",
   "stream=bit_rate,bits_per_sample", "-of", "default=noprint_wrappers=1", file]

/-- `getAudioStreamInfo` from the source: any rejection of the runner is
swallowed into `{null, null}`, otherwise the stdout text is parsed. -/
def getAudioStreamInfo (o : Oracle) (file : String) : StreamInfo :=
  match o.probeStdout with
  | none => ⟨none, none⟩
  | some out => parseProbeOutput out

/-- The ffmpeg argument list `trimFile` constructs. -/
def ffmpegArgs (inputPath filter : String) (codec : List String) (target : String) :
    List String :=
  ["-hide_banner", "-y", "-i", inputPath, "-af", filter, "-map_metadata", "0"] ++
    codec ++ [target]

/-- Everything one `trimFile` run produces: the structured result, the
final filesystem, and the trace of side effects. -/
structure RunOutcome where
  result : TrimResult
  fs : FS
  trace : List Event

/-- The final `fs.rename(paths.tmp, paths.final)` of `trimFile`, with the
best-effort backup-restore branch on failure. -/
def finalizeRename (inputPath tmp bak final : String) (noBackup : Bool) (o : Oracle)
    (fs : FS) (tr : List Event) : RunOutcome :=
  let r := tryRename fs tmp final o.renameTmpToFinalOk
  let tr2 := tr ++ [.renameOp tmp final r.1]
  if r.1 then ⟨⟨.ok, some inputPath⟩, r.2, tr2⟩
  else
    if !noBackup then
      if (r.2 bak).isSome then
        let rr := tryRename r.2 bak inputPath o.renameBakRestoreOk
        ⟨⟨.error, none⟩, rr.2, tr2 ++ [.existsOp bak, .renameOp bak inputPath rr.1]⟩
      else ⟨⟨.error, none⟩, r.2, tr2 ++ [.existsOp bak]⟩
    else ⟨⟨.error, none⟩, r.2, tr2⟩

/-- The finalize protocol of `trimFile` for in-place mode, entered after a
successful ffmpeg run: move the original aside (backup rename or direct
unlink), then promote the temp output. -/
def finalizeInPlace (inputPath tmp bak final : String) (noBackup : Bool) (o : Oracle)
    (fs : FS) (tr : List Event) : RunOutcome :=
  if !noBackup then
    let r := tryRename fs inputPath bak o.renameToBakOk
    let tr2 := tr ++ [.renameOp inputPath bak r.1]
    if r.1 then finalizeRename inputPath tmp bak final noBackup o r.2 tr2
    else
      let u := tryUnlink r.2 tmp o.unlinkTmpAfterBakFailOk
      ⟨⟨.error, none⟩, u.2, tr2 ++ [.unlinkOp tmp u.1]⟩
  else
    let r := tryUnlink fs inputPath o.unlinkOriginalOk
    let tr2 := tr ++ [.unlinkOp inputPath r.1]
    if r.1 then finalizeRename inputPath tmp bak final noBackup o r.2 tr2
    else
      let u := tryUnlink r.2 tmp o.unlinkTmpAfterUnlinkFailOk
      ⟨⟨.error, none⟩, u.2, tr2 ++ [.unlinkOp tmp u.1]⟩

/-- `trimFile` from the source, as a function of the input path, the
options, the initial filesystem, the oracle of external outcomes, and the
`Date.now()` reading of this invocation. -/
def trimFile (inputPath : String) (opts : TrimOptions) (fs0 : FS) (o : Oracle)
    (now : Nat) : RunOutcome :=
  let tr0 : List Event := [.statOp inputPath]
  let statEntry : Option Entry := if o.statThrows then none else fs0 inputPath
  match statEntry with
  | none => ⟨⟨.skipped, none⟩, fs0, tr0⟩
  | some Entry.other => ⟨⟨.skipped, none⟩, fs0, tr0⟩
  | some (Entry.file _) =>
    let ext := lowerStr (extname inputPath)
    if !(SUPPORTED_EXTS.contains ext) then ⟨⟨.skipped, none⟩, fs0, tr0⟩
    else
      let info := getAudioStreamInfo o inputPath
      let filt := silenceremoveFilter opts.thresholdDb opts.startSeconds opts.stopSeconds
      let paths := buildOutputPaths inputPath opts.suffix opts.inPlace now
      let codec := codecArgsFor ext info
      let target := match paths with
        | .inPlace tmp _ _ => tmp
        | .copy out => out
      let args := ffmpegArgs inputPath filt codec target
      let tr1 := tr0 ++ [.spawnProbe (probeArgs inputPath), .spawnFfmpeg args]
      if o.ffmpegOk then
        let fs1 := fs0.set target (some (.file o.outContent))
        match paths with
        | .copy out => ⟨⟨.ok, some out⟩, fs1, tr1⟩
        | .inPlace tmp bak final =>
          finalizeInPlace inputPath tmp bak final opts.noBackup o fs1 tr1
      else
        let fs1 := if o.ffmpegLeavesPartial then fs0.set target (some (.file o.partialContent)) else fs0
        match paths with
        | .copy _ => ⟨⟨.error, none⟩, fs1, tr1⟩
        | .inPlace tmp _ _ =>
          if (fs1 tmp).isSome then
            let u := tryUnlink fs1 tmp o.unlinkTmpAfterFfmpegFailOk
            ⟨⟨.error, none⟩, u.2, tr1 ++ [.existsOp tmp, .unlinkOp tmp u.1]⟩
          else ⟨⟨.error, none⟩, fs1, tr1 ++ [.existsOp tmp]⟩

-- Helper observers over the effect model ------------------------------------

/-- True on the events that spawn a subprocess. -/
def isSpawn : Event → Bool
  | .spawnProbe _ => true
  | .spawnFfmpeg _ => true
  | _ => false

/-- True on the events by which the orchestrator itself mutates the
filesystem (renames and unlinks; the subprocesses write files, the
orchestrator only moves or deletes them). -/
def mutates : Event → Bool
  | .renameOp _ _ _ => true
  | .unlinkOp _ _ => true
  | _ => false

/-- The copy-mode output path of the planner, spelled out. -/
def copyOutPath (p suffix : String) : String :=
  join2 (dirname p) (basename2 p (extname p) ++ suffix ++ extname p)

/-- The in-place temp path of the planner, spelled out. -/
def tmpPath (p : String) (now : Nat) : String :=
  join2 (dirname p) (basename2 p (extname p) ++ ".__tmp_" ++ natDec now ++ extname p)

/-- The in-place backup path of the planner, spelled out. -/
def bakPath (p : String) : String :=
  join2 (dirname p) (basename2 p (extname p) ++ ".bak" ++ extname p)

-- Theorems -------------------------------------------------------------------

/-- C3: for every input path, every options object, and every outcome of the
external process invocations and filesystem operations (the whole `Oracle`),
`trimFile` resolves to a structured result whose status is exactly one of
`ok`, `skipped`, `error`; the embedding is a total function, reflecting that
every await in the source is guarded, so no exception escapes the per-file
orchestrator boundary. -/
theorem trimFile_always_structured_status (inputPath : String) (opts : TrimOptions)
    (fs0 : FS) (o : Oracle) (now : Nat) :
    (trimFile inputPath opts fs0 o now).result.status = .ok ∨
    (trimFile inputPath opts fs0 o now).result.status = .skipped ∨
    (trimFile inputPath opts fs0 o now).result.status = .error := by
  cases h : (trimFile inputPath opts fs0 o now).result.status
  · exact Or.inl rfl
  · exact Or.inr (Or.inl rfl)
  · exact Or.inr (Or.inr rfl)

/-- C6: for every input path, suffix and mode, `buildOutputPaths` returns in
copy mode the input's directory joined with base name + suffix + original
extension; in in-place mode a backup path of directory joined with base name
+ ".bak" + extension, and a final path exactly equal to the input path. -/
theorem buildOutputPaths_correct (p s : String) (t : Nat) :
    buildOutputPaths p s false t = .copy (copyOutPath p s) ∧
    buildOutputPaths p s true t = .inPlace (tmpPath p t) (bakPath p) p := by
  exact ⟨rfl, rfl⟩

/-- C8: for every threshold, start and stop parameter, the computed filter
expression is exactly the `silenceremove` expression with
`start_periods=1`, `start_duration=` the start parameter, `start_threshold=`
the threshold in dB, `stop_periods=1`, `stop_duration=` the stop parameter,
and `stop_threshold=` the same threshold in dB. -/
theorem silenceremoveFilter_correct (thresholdDb startSec stopSec : String) :
    silenceremoveFilter thresholdDb startSec stopSec =
      "silenceremove=start_periods=1:start_duration=" ++ startSec ++
      ":start_threshold=" ++ thresholdDb ++ "dB" ++
      ":stop_periods=1:stop_duration=" ++ stopSec ++
      ":stop_threshold=" ++ thresholdDb ++ "dB" := by
  apply String.ext
  simp [silenceremoveFilter, String.data_append, List.append_assoc]

/-- C7: codec selection.  For `.wav` the PCM depth is 32 when the probed
bit depth is at least 32, 24 when at least 24, else 16 (also for an unknown
depth), independently of the probed bitrate; for `.mp3` and `.ogg` a known
(positive) probed bitrate yields a target-bitrate argument at exactly that
rate, and an unknown one yields the fixed quality preset (level 2 resp. 5)
with no bitrate argument. -/
theorem codecArgsFor_correct (br bs : Option Int) (b k : Int) (hk : 0 < k) :
    codecArgsFor ".wav" ⟨br, some b⟩ =
      (if 32 ≤ b then ["-c:a", "pcm_s32le"]
       else if 24 ≤ b then ["-c:a", "pcm_s24le"] else ["-c:a", "pcm_s16le"]) ∧
    codecArgsFor ".wav" ⟨br, none⟩ = ["-c:a", "pcm_s16le"] ∧
    codecArgsFor ".mp3" ⟨some k, bs⟩ = ["-c:a", "libmp3lame", "-b:a", toString k ++ "k"] ∧
    codecArgsFor ".mp3" ⟨none, bs⟩ = ["-c:a", "libmp3lame", "-q:a", "2"] ∧
    "-b:a" ∉ codecArgsFor ".mp3" ⟨none, bs⟩ ∧
    codecArgsFor ".ogg" ⟨some k, bs⟩ = ["-c:a", "libvorbis", "-b:a", toString k ++ "k"] ∧
    codecArgsFor ".ogg" ⟨none, bs⟩ = ["-c:a", "libvorbis", "-q:a", "5"] ∧
    "-b:a" ∉ codecArgsFor ".ogg" ⟨none, bs⟩ := by
  have hk' : k ≠ 0 := by omega
  refine ⟨?_, ?_, ?_, ?_, ?_, ?_, ?_, ?_⟩ <;>
    simp [codecArgsFor, hk', Option.getD]

/-- Witness for C7 at concrete inputs (24-bit WAV and a probe-less MP3,
the two instances named by the spec). -/
theorem codecArgsFor_correct_witness :
    codecArgsFor ".wav" ⟨none, some 24⟩ = ["-c:a", "pcm_s24le"] ∧
    codecArgsFor ".mp3" ⟨none, none⟩ = ["-c:a", "libmp3lame", "-q:a", "2"] := by
  have h := codecArgsFor_correct none none 24 128 (by decide)
  refine ⟨?_, h.2.2.2.1⟩
  rw [h.1]
  decide

/-- Counterexample to C4 as stated: the planner's temp path is a pure
function of the input path and the `Date.now()` reading, so two distinct
invocations (here: with different suffix arguments) that observe the same
millisecond clock value compute the same temp path; and the planner never
consults the filesystem, so its temp path can equal a path at which a file
already exists at planning time (the filesystem shown holds a file at
exactly the computed temp path). -/
theorem buildOutputPaths_tmp_not_unique_counterexample :
    buildOutputPaths "a.mp3" "_trimmed" true 5 =
      .inPlace "a.__tmp_5.mp3" "a.bak.mp3" "a.mp3" ∧
    buildOutputPaths "a.mp3" "other" true 5 =
      .inPlace "a.__tmp_5.mp3" "a.bak.mp3" "a.mp3" ∧
    ((fun q => if q = "a.__tmp_5.mp3" then some (Entry.file 7) else none : FS)
      "a.__tmp_5.mp3") = some (Entry.file 7) := by
  refine ⟨by decide, by decide, by decide⟩

/-- Preservation of the field bounds by one parsing step: the bitrate field
is only ever set to `(bps + 500) / 1000` for a positive `bps` (hence
non-negative, and zero exactly for `bps < 500`), the bit-depth field only
to a positive `bps`. -/
theorem parseProbeLine_inv (info : StreamInfo) (line : List Char)
    (h1 : ∀ k, info.bitrateKbps = some k → 0 ≤ k)
    (h2 : ∀ k, info.bitsPerSample = some k → 0 < k) :
    (∀ k, (parseProbeLine info line).bitrateKbps = some k → 0 ≤ k) ∧
    (∀ k, (parseProbeLine info line).bitsPerSample = some k → 0 < k) := by
  unfold parseProbeLine
  split
  · exact ⟨h1, h2⟩
  dsimp only
  split
  · split
    · rename_i bps _
      split
      · rename_i hpos
        refine ⟨?_, h2⟩
        intro k hk
        simp only [Option.some.injEq] at hk
        omega
      · exact ⟨h1, h2⟩
    · exact ⟨h1, h2⟩
  split
  · split
    · rename_i bps _
      split
      · rename_i hpos
        refine ⟨h1, ?_⟩
        intro k hk
        simp only [Option.some.injEq] at hk
        omega
      · exact ⟨h1, h2⟩
    · exact ⟨h1, h2⟩
  · exact ⟨h1, h2⟩

/-- The field bounds hold for the whole parsing loop, whatever the stdout
lines are. -/
theorem parseProbeFold_inv (lines : List (List Char)) (info : StreamInfo)
    (h1 : ∀ k, info.bitrateKbps = some k → 0 ≤ k)
    (h2 : ∀ k, info.bitsPerSample = some k → 0 < k) :
    (∀ k, (lines.foldl parseProbeLine info).bitrateKbps = some k → 0 ≤ k) ∧
    (∀ k, (lines.foldl parseProbeLine info).bitsPerSample = some k → 0 < k) := by
  induction lines generalizing info with
  | nil => exact ⟨h1, h2⟩
  | cons l ls ih =>
    have h := parseProbeLine_inv info l h1 h2
    exact ih (parseProbeLine info l) h.1 h.2

/-- C9 (amended): for every outcome of the external prober — absence, crash,
non-zero exit (`probeStdout = none`) or arbitrary stdout text —
`getAudioStreamInfo` resolves; the bitrate field is null or a non-negative
integer (zero is reachable, for probed bit rates of 1..499 bps), the
bit-depth field is null or a positive integer, and any Process Runner
failure yields exactly `{null, null}`. -/
theorem getAudioStreamInfo_fields (o : Oracle) (f : String) :
    (∀ k, (getAudioStreamInfo o f).bitrateKbps = some k → 0 ≤ k) ∧
    (∀ k, (getAudioStreamInfo o f).bitsPerSample = some k → 0 < k) ∧
    (o.probeStdout = none → getAudioStreamInfo o f = ⟨none, none⟩) := by
  unfold getAudioStreamInfo
  cases h : o.probeStdout with
  | none => exact ⟨by simp, by simp, fun _ => rfl⟩
  | some out =>
    have hinv := parseProbeFold_inv (probeLines out) ⟨none, none⟩
      (by simp) (by simp)
    exact ⟨hinv.1, hinv.2, by simp⟩

/-- Witness for C9 (amended): concrete probe outcomes exercising each
conjunct (a 128 kbps bit rate, a 24-bit depth, and a failed runner). -/
theorem getAudioStreamInfo_fields_witness :
    (0 : Int) ≤ 128 ∧ (0 : Int) < 24 ∧
    getAudioStreamInfo { } "f.mp3" = ⟨none, none⟩ :=
  ⟨(getAudioStreamInfo_fields { probeStdout := some "bit_rate=128000" } "f.mp3").1
      128 (by decide),
   (getAudioStreamInfo_fields { probeStdout := some "bits_per_sample=24" } "f.mp3").2.1
      24 (by decide),
   (getAudioStreamInfo_fields { } "f.mp3").2.2 rfl⟩

/-- Counterexample to C9 as stated: a probe run whose stdout reports
`bit_rate=1` (any value from 1 to 499 behaves alike) produces
`bitrateKbps = 0` — `Math.round(bps / 1000)` rounds to zero — which is
neither null nor a positive integer. -/
theorem getAudioStreamInfo_zero_bitrate_counterexample :
    (getAudioStreamInfo { probeStdout := some "bit_rate=1" } "in.wav").bitrateKbps
      = some 0 ∧ ¬ (0 : Int) > 0 := by
  refine ⟨by decide, by decide⟩

/-- C2: for every input path that does not exist, is not a regular file, or
whose extension does not case-insensitively match `.mp3`/`.wav`/`.ogg`,
`trimFile` returns `skipped` and spawns no subprocess (neither the prober
nor the media processor). -/
theorem trimFile_unsupported_skipped (p : String) (opts : TrimOptions) (fs0 : FS)
    (o : Oracle) (now : Nat)
    (h : fs0 p = none ∨ fs0 p = some .other ∨
         SUPPORTED_EXTS.contains (lowerStr (extname p)) = false) :
    (trimFile p opts fs0 o now).result.status = .skipped ∧
    (trimFile p opts fs0 o now).trace.any isSpawn = false := by
  rcases h with h | h | h
  · cases hs : o.statThrows <;> simp [trimFile, h, hs, isSpawn]
  · cases hs : o.statThrows <;> simp [trimFile, h, hs, isSpawn]
  · have h' : ¬ lowerStr (extname p) ∈ SUPPORTED_EXTS := by simpa using h
    cases hs : o.statThrows
    · cases hf : fs0 p with
      | none => simp [trimFile, hs, hf, isSpawn]
      | some e =>
        cases e with
        | other => simp [trimFile, hs, hf, isSpawn]
        | file c => simp [trimFile, hs, hf, h', isSpawn]
    · simp [trimFile, hs, isSpawn]

/-- Witness for C2: a text file that exists on disk is skipped without any
subprocess. -/
theorem trimFile_unsupported_skipped_witness :
    (trimFile "notes.txt" { }
      (fun q => if q = "notes.txt" then some (Entry.file 3) else none) { } 7).result.status
      = .skipped ∧
    ((trimFile "notes.txt" { }
      (fun q => if q = "notes.txt" then some (Entry.file 3) else none) { } 7).trace.any
      isSpawn) = false :=
  trimFile_unsupported_skipped "notes.txt" { } _ { } 7 (Or.inr (Or.inr (by decide)))

/-- C5: every successful copy-mode run reports the output path
`<dir>/<base><suffix><ext>`, a file exists there afterwards, the
orchestrator itself performed no rename or unlink (so it left the input
untouched), and — whenever the planned output is not the input path
itself — the input's entry is bit-for-bit the initial one. -/
theorem trimFile_copy_ok_frame (p : String) (opts : TrimOptions) (fs0 : FS)
    (o : Oracle) (now : Nat)
    (hmode : opts.inPlace = false)
    (hok : (trimFile p opts fs0 o now).result.status = .ok) :
    (trimFile p opts fs0 o now).result.outputPath = some (copyOutPath p opts.suffix) ∧
    ((trimFile p opts fs0 o now).fs (copyOutPath p opts.suffix)).isSome = true ∧
    (trimFile p opts fs0 o now).trace.any mutates = false ∧
    (copyOutPath p opts.suffix ≠ p → (trimFile p opts fs0 o now).fs p = fs0 p) := by
  cases hs : o.statThrows with
  | true => simp [trimFile, hs] at hok
  | false =>
    cases hf : fs0 p with
    | none => simp [trimFile, hs, hf] at hok
    | some e =>
      cases e with
      | other => simp [trimFile, hs, hf] at hok
      | file c =>
        cases hext : SUPPORTED_EXTS.contains (lowerStr (extname p)) with
        | false =>
          have hext' : ¬ lowerStr (extname p) ∈ SUPPORTED_EXTS := by simpa using hext
          simp [trimFile, hs, hf, hext'] at hok
        | true =>
          have hext' : lowerStr (extname p) ∈ SUPPORTED_EXTS := by simpa using hext
          cases hffm : o.ffmpegOk with
          | false => simp [trimFile, hs, hf, hext', hffm, hmode, buildOutputPaths] at hok
          | true =>
            refine ⟨?_, ?_, ?_, ?_⟩
            · simp [trimFile, hs, hf, hext', hffm, hmode, buildOutputPaths, copyOutPath]
            · simp [trimFile, hs, hf, hext', hffm, hmode, buildOutputPaths, copyOutPath,
                    FS.set]
            · simp [trimFile, hs, hf, hext', hffm, hmode, buildOutputPaths, mutates]
            · intro hne
              unfold copyOutPath at hne
              simp [trimFile, hs, hf, hext', hffm, hmode, buildOutputPaths, copyOutPath,
                FS.set]
              intro heq
              exact absurd heq.symm hne

/-- Witness for C5 at a concrete successful copy-mode run. -/
theorem trimFile_copy_ok_frame_witness :
    (trimFile "a.mp3" { } (fun q => if q = "a.mp3" then some (Entry.file 3) else none)
      { } 7).result.outputPath = some (copyOutPath "a.mp3" "_trimmed") ∧
    ((trimFile "a.mp3" { } (fun q => if q = "a.mp3" then some (Entry.file 3) else none)
      { } 7).fs (copyOutPath "a.mp3" "_trimmed")).isSome = true ∧
    (trimFile "a.mp3" { } (fun q => if q = "a.mp3" then some (Entry.file 3) else none)
      { } 7).trace.any mutates = false ∧
    (copyOutPath "a.mp3" "_trimmed" ≠ "a.mp3" →
      (trimFile "a.mp3" { } (fun q => if q = "a.mp3" then some (Entry.file 3) else none)
        { } 7).fs "a.mp3" =
      (fun q => if q = "a.mp3" then some (Entry.file 3) else none : FS) "a.mp3") :=
  trimFile_copy_ok_frame "a.mp3" { } _ { } 7 rfl (by decide)

/-- C10 (implicit): with an empty suffix in copy mode, the planned output
path equals the input path itself (whenever the path round-trips through
the planner's dir/base/ext decomposition, as every normalized path does),
and `trimFile` duly spawns the media processor with the force-overwrite
flag `-y` and an output target — the final argument — identical to its
input file; no guard prevents this. -/
theorem trimFile_empty_suffix_targets_input (p : String) (opts : TrimOptions)
    (fs0 : FS) (o : Oracle) (now : Nat) (c : Nat)
    (hsuf : opts.suffix = "")
    (hmode : opts.inPlace = false)
    (hfile : fs0 p = some (.file c))
    (hstat : o.statThrows = false)
    (hext : SUPPORTED_EXTS.contains (lowerStr (extname p)) = true)
    (hround : copyOutPath p "" = p) :
    buildOutputPaths p opts.suffix opts.inPlace now = .copy p ∧
    ∃ args, Event.spawnFfmpeg args ∈ (trimFile p opts fs0 o now).trace ∧
      "-y" ∈ args ∧ args.getLast? = some p := by
  have hplan0 : buildOutputPaths p "" false now = .copy p := by
    rw [show buildOutputPaths p "" false now = .copy (copyOutPath p "") from rfl, hround]
  have hplan : buildOutputPaths p opts.suffix opts.inPlace now = .copy p := by
    rw [hsuf, hmode]
    exact hplan0
  refine ⟨hplan, ?_⟩
  refine ⟨ffmpegArgs p
    (silenceremoveFilter opts.thresholdDb opts.startSeconds opts.stopSeconds)
    (codecArgsFor (lowerStr (extname p)) (getAudioStreamInfo o p)) p, ?_, ?_, ?_⟩
  · have hext' : lowerStr (extname p) ∈ SUPPORTED_EXTS := by simpa using hext
    cases hffm : o.ffmpegOk with
    | true => simp [trimFile, hstat, hfile, hext', hffm, hplan0, hsuf, hmode]
    | false => simp [trimFile, hstat, hfile, hext', hffm, hplan0, hsuf, hmode]
  · simp [ffmpegArgs]
  · exact List.getLast?_concat _

/-- Witness for C10 at a concrete input: `a.mp3` with suffix `""`. -/
theorem trimFile_empty_suffix_targets_input_witness :
    buildOutputPaths "a.mp3" ("" : String) false 7 = .copy "a.mp3" ∧
    ∃ args, Event.spawnFfmpeg args ∈
        (trimFile "a.mp3" { suffix := "" }
          (fun q => if q = "a.mp3" then some (Entry.file 3) else none) { } 7).trace ∧
      "-y" ∈ args ∧ args.getLast? = some "a.mp3" :=
  trimFile_empty_suffix_targets_input "a.mp3" { suffix := "" } _ { } 7 3
    rfl rfl (by decide) rfl (by decide) (by decide)

-- Injectivity of the decimal rendering ---------------------------------------

theorem undigits_digitsRevGo (fuel : Nat) :
    ∀ n, n ≤ fuel → undigits (digitsRevGo fuel n) = n := by
  induction fuel with
  | zero =>
    intro n hn
    interval_cases n
    simp [digitsRevGo, undigits]
  | succ fuel ih =>
    intro n hn
    unfold digitsRevGo
    split
    · simp [undigits]
    · rename_i h10
      have hdiv : n / 10 ≤ fuel := by omega
      have hc : undigits ((n % 10) :: digitsRevGo fuel (n / 10)) =
          n % 10 + 10 * undigits (digitsRevGo fuel (n / 10)) := rfl
      rw [hc, ih (n / 10) hdiv]
      omega

theorem digitsRev_inj (m n : Nat) (h : digitsRev m = digitsRev n) : m = n := by
  have hm := undigits_digitsRevGo m m le_rfl
  have hn := undigits_digitsRevGo n n le_rfl
  unfold digitsRev at h
  rw [← hm, ← hn, h]

theorem digitsRevGo_lt (fuel : Nat) :
    ∀ n, n ≤ fuel → ∀ d ∈ digitsRevGo fuel n, d < 10 := by
  induction fuel with
  | zero =>
    intro n hn d hd
    interval_cases n
    simp [digitsRevGo] at hd
    omega
  | succ fuel ih =>
    intro n hn d hd
    unfold digitsRevGo at hd
    split at hd
    · simp at hd
      omega
    · simp only [List.mem_cons] at hd
      rcases hd with hd | hd
      · omega
      · exact ih (n / 10) (by omega) d hd

theorem digitChar_inj_lt (a b : Nat) (ha : a < 10) (hb : b < 10)
    (h : digitChar a = digitChar b) : a = b := by
  have key : ∀ a b : Fin 10, digitChar a.val = digitChar b.val → a = b := by decide
  exact congrArg Fin.val (key ⟨a, ha⟩ ⟨b, hb⟩ h)

theorem map_digitChar_inj (l1 : List Nat) :
    ∀ l2, (∀ a ∈ l1, a < 10) → (∀ b ∈ l2, b < 10) →
      l1.map digitChar = l2.map digitChar → l1 = l2 := by
  induction l1 with
  | nil =>
    intro l2 _ _ h
    cases l2 with
    | nil => rfl
    | cons b bs => simp at h
  | cons a as ih =>
    intro l2 h1 h2 h
    cases l2 with
    | nil => simp at h
    | cons b bs =>
      simp only [List.map_cons, List.cons.injEq] at h
      have ha := h1 a (by simp)
      have hb := h2 b (by simp)
      rw [digitChar_inj_lt a b ha hb h.1,
        ih bs (fun x hx => h1 x (by simp [hx])) (fun x hx => h2 x (by simp [hx])) h.2]

theorem natDec_inj (m n : Nat) (h : natDec m = natDec n) : m = n := by
  have hd : (((digitsRev m).map digitChar).reverse) =
      (((digitsRev n).map digitChar).reverse) := congrArg String.data h
  have hd2 := List.reverse_inj.mp hd
  have hm := digitsRevGo_lt m m le_rfl
  have hn := digitsRevGo_lt n n le_rfl
  exact digitsRev_inj m n (map_digitChar_inj _ _ hm hn hd2)

theorem natDec_no_slash (n : Nat) : ∀ c ∈ (natDec n).data, c ≠ '/' := by
  intro c hc
  simp only [natDec, List.mem_reverse] at hc
  rw [List.mem_map] at hc
  obtain ⟨d, hd, rfl⟩ := hc
  have hlt := digitsRevGo_lt n n le_rfl d hd
  have key : ∀ d : Fin 10, digitChar d.val ≠ '/' := by decide
  exact key ⟨d, hlt⟩

-- Structure lemmas for splitting and joining paths ---------------------------

theorem splitOnChar_ne_nil (sep : Char) (cs : List Char) : splitOnChar sep cs ≠ [] := by
  cases cs with
  | nil => simp [splitOnChar]
  | cons c rest =>
    unfold splitOnChar
    cases h : splitOnChar sep rest with
    | nil => simp
    | cons g gs =>
      dsimp only
      split <;> simp

theorem splitOnChar_append (sep : Char) (a b : List Char) :
    splitOnChar sep (a ++ sep :: b) = splitOnChar sep a ++ splitOnChar sep b := by
  induction a with
  | nil =>
    simp only [List.nil_append]
    show (match splitOnChar sep b with
      | [] => [[]]
      | g :: gs => if sep = sep then [] :: g :: gs else (sep :: g) :: gs) = _
    cases h : splitOnChar sep b with
    | nil => exact absurd h (splitOnChar_ne_nil sep b)
    | cons g gs => simp [splitOnChar]
  | cons c a' ih =>
    simp only [List.cons_append]
    show (match splitOnChar sep (a' ++ sep :: b) with
      | [] => [[]]
      | g :: gs => if c = sep then [] :: g :: gs else (c :: g) :: gs) = _
    rw [ih]
    cases h : splitOnChar sep a' with
    | nil => exact absurd h (splitOnChar_ne_nil sep a')
    | cons g gs =>
      show (match (g :: gs) ++ splitOnChar sep b with
        | [] => [[]]
        | g :: gs => if c = sep then [] :: g :: gs else (c :: g) :: gs) = _
      simp only [List.cons_append]
      unfold splitOnChar
      rw [h]
      split <;> simp

theorem splitOnChar_no_sep (sep : Char) (cs : List Char) (h : ∀ c ∈ cs, c ≠ sep) :
    splitOnChar sep cs = [cs] := by
  induction cs with
  | nil => rfl
  | cons c rest ih =>
    unfold splitOnChar
    rw [ih (fun x hx => h x (by simp [hx]))]
    simp [h c (by simp)]

theorem resolveParts_append_single (allow : Bool) (xs : List (List Char)) (n : List Char)
    (h0 : n ≠ []) (h1 : n ≠ ['.']) (h2 : n ≠ ['.', '.']) :
    resolveParts allow (xs ++ [n]) = n :: resolveParts allow xs := by
  unfold resolveParts
  rw [List.foldl_append]
  show resolveStep allow _ n = _
  unfold resolveStep
  simp [h0, h1, h2]

theorem intercalateSlash_concat (ys : List (List Char)) (n : List Char) :
    intercalateSlash (ys ++ [n]) =
      (if ys = [] then n else intercalateSlash ys ++ '/' :: n) := by
  induction ys with
  | nil => simp [intercalateSlash]
  | cons y ys ih =>
    cases ys with
    | nil => simp [intercalateSlash]
    | cons z zs =>
      simp only [List.cons_append]
      show y ++ '/' :: intercalateSlash ((z :: zs) ++ [n]) = _
      rw [ih]
      simp [intercalateSlash, List.append_assoc]

theorem takeWhile_append_fail (p : Char → Bool) (xs : List Char) (y : Char) (ys : List Char)
    (hall : ∀ c ∈ xs, p c = true) (hy : p y = false) :
    (xs ++ y :: ys).takeWhile p = xs := by
  induction xs with
  | nil =>
    rw [List.nil_append, List.takeWhile_cons, hy]
    simp
  | cons x xs ih =>
    simp only [List.cons_append, List.takeWhile_cons]
    rw [hall x (by simp)]
    simp [ih (fun c hc => hall c (by simp [hc]))]

theorem takeWhile_all (p : Char → Bool) (xs : List Char) (hall : ∀ c ∈ xs, p c = true) :
    xs.takeWhile p = xs := by
  induction xs with
  | nil => rfl
  | cons x xs ih =>
    rw [List.takeWhile_cons, hall x (by simp)]
    simp [ih (fun c hc => hall c (by simp [hc]))]

theorem dropWhile_all_false (p : Char → Bool) (xs : List Char)
    (hall : ∀ c ∈ xs, p c = false) : xs.dropWhile p = xs := by
  cases xs with
  | nil => rfl
  | cons x xs => exact List.dropWhile_cons_of_neg (by simp [hall x (by simp)])

-- The basename of a path built by appending a slash-free component ------------

theorem basename_mk_after_slash (A m : List Char) (hm : m ≠ [])
    (hms : ∀ c ∈ m, c ≠ '/') :
    basename (String.mk (A ++ '/' :: m)) = String.mk m := by
  unfold basename
  have hrev : (String.mk (A ++ '/' :: m)).data.reverse =
      m.reverse ++ '/' :: A.reverse := by
    show (A ++ '/' :: m).reverse = _
    rw [List.reverse_append, List.reverse_cons, List.append_assoc]
    rfl
  rw [hrev]
  obtain ⟨c, rest, hcr⟩ : ∃ c rest, m.reverse = c :: rest := by
    cases h : m.reverse with
    | nil => exact absurd h (List.reverse_ne_nil_iff.mpr hm)
    | cons c rest => exact ⟨c, rest, rfl⟩
  have hcm : c ∈ m := List.mem_reverse.mp (hcr ▸ List.mem_cons_self c rest)
  rw [hcr, List.cons_append, List.dropWhile_cons_of_neg (by simp [hms c hcm]),
    ← List.cons_append, ← hcr,
    takeWhile_append_fail _ _ _ _
      (fun x hx => by simp [hms x (List.mem_reverse.mp hx)]) (by simp),
    List.reverse_reverse]

theorem basename_mk_no_slash (m : List Char) (hms : ∀ c ∈ m, c ≠ '/') :
    basename (String.mk m) = String.mk m := by
  unfold basename
  show String.mk ((((m.reverse).dropWhile (· = '/')).takeWhile (· ≠ '/')).reverse) = _
  rw [dropWhile_all_false _ _ (fun c hc => by simp [hms c (List.mem_reverse.mp hc)]),
    takeWhile_all _ _ (fun c hc => by simp [hms c (List.mem_reverse.mp hc)]),
    List.reverse_reverse]

theorem normalize_append_basename (dir : String) (m : List Char) (hm : m ≠ [])
    (hms : ∀ c ∈ m, c ≠ '/') (hdot : m ≠ ['.']) (hddot : m ≠ ['.', '.']) :
    basename (normalize (dir ++ "/" ++ String.mk m)) = String.mk m := by
  have hdata : (dir ++ "/" ++ String.mk m).data = dir.data ++ '/' :: m := by
    simp [String.data_append, List.append_assoc]
  have htrail : ¬ (dir.data ++ '/' :: m).getLast? = some '/' := by
    rw [List.getLast?_append_of_ne_nil _ (by simp : '/' :: m ≠ [])]
    obtain ⟨m0, m1, rfl⟩ : ∃ m0 m1, m = m0 :: m1 := by
      cases m with
      | nil => exact absurd rfl hm
      | cons m0 m1 => exact ⟨m0, m1, rfl⟩
    rw [show ('/' :: m0 :: m1).getLast? = (m0 :: m1).getLast? from rfl]
    intro hcon
    exact hms _ (List.mem_of_mem_getLast? hcon) rfl
  have hsplit : splitSlash (dir.data ++ '/' :: m) =
      splitOnChar '/' dir.data ++ [m] := by
    unfold splitSlash
    rw [splitOnChar_append, splitOnChar_no_sep '/' m hms]
  unfold normalize
  rw [hdata, if_neg (by simp : ¬ dir.data ++ '/' :: m = [])]
  dsimp only
  rw [hsplit, resolveParts_append_single _ _ m hm hdot hddot, List.reverse_cons,
    if_neg (by simp : ¬ (resolveParts _ (splitOnChar '/' dir.data)).reverse ++ [m] = []),
    intercalateSlash_concat, if_neg htrail]
  simp only [if_false, List.append_nil]
  by_cases hAbs : (dir.data ++ '/' :: m).head? = some '/'
  · cases hys : (resolveParts (!decide ((dir.data ++ '/' :: m).head? = some '/'))
        (splitOnChar '/' dir.data)).reverse with
    | nil =>
      rw [if_pos hAbs, if_pos rfl]
      have h := basename_mk_after_slash [] m hm hms
      simpa using h
    | cons y ys =>
      rw [if_pos hAbs, if_neg (by simp)]
      rw [show ('/' :: (intercalateSlash (y :: ys) ++ '/' :: m)) =
        (('/' :: intercalateSlash (y :: ys)) ++ '/' :: m) from rfl]
      exact basename_mk_after_slash _ m hm hms
  · cases hys : (resolveParts (!decide ((dir.data ++ '/' :: m).head? = some '/'))
        (splitOnChar '/' dir.data)).reverse with
    | nil =>
      rw [if_neg hAbs, if_pos rfl]
      exact basename_mk_no_slash m hms
    | cons y ys =>
      rw [if_neg hAbs, if_neg (by simp)]
      exact basename_mk_after_slash _ m hm hms

/-- The basename of `path.join(dir, name)` is `name`, for any nonempty
slash-free name other than `.` and `..` and any nonempty `dir` — the planner
only ever joins such names. -/
theorem join2_basename (dir : String) (m : List Char) (hdir : dir ≠ "") (hm : m ≠ [])
    (hms : ∀ c ∈ m, c ≠ '/') (hdot : m ≠ ['.']) (hddot : m ≠ ['.', '.']) :
    basename (join2 dir (String.mk m)) = String.mk m := by
  have hmne : String.mk m ≠ "" := fun h => hm (congrArg String.data h)
  unfold join2
  rw [if_neg (fun h => hdir h.1), if_neg hdir, if_neg hmne]
  exact normalize_append_basename dir m hm hms hdot hddot

-- No component computed by the planner contains a slash ----------------------

theorem mem_takeWhile_mem {p : Char → Bool} {l : List Char} {c : Char}
    (h : c ∈ l.takeWhile p) : c ∈ l := by
  have := List.takeWhile_append_dropWhile p l
  rw [← this]
  exact List.mem_append_left _ h

theorem basename_no_slash (p : String) : ∀ c ∈ (basename p).data, c ≠ '/' := by
  intro c hc
  have hc' : c ∈ ((p.data.reverse).dropWhile (· = '/')).takeWhile (· ≠ '/') := by
    simpa [basename] using hc
  have h := List.mem_takeWhile_imp hc'
  simpa using h

theorem basename2_no_slash (p e : String) : ∀ c ∈ (basename2 p e).data, c ≠ '/' := by
  intro c hc
  unfold basename2 at hc
  dsimp only at hc
  split at hc
  · exact basename_no_slash p c (List.mem_of_mem_take hc)
  · exact basename_no_slash p c hc

theorem extname_no_slash (p : String) : ∀ c ∈ (extname p).data, c ≠ '/' := by
  intro c hc
  unfold extname at hc
  dsimp only at hc
  split at hc
  · simp at hc
  split at hc
  · simp at hc
  split at hc
  · simp at hc
  · show c ≠ '/'
    have hc' : c ∈ ('.' ::
        ((((p.data.reverse).dropWhile (· = '/')).takeWhile (· ≠ '/')).takeWhile
          (· ≠ '.')).reverse) := hc
    rcases List.mem_cons.mp hc' with h | h
    · subst h; decide
    · have h1 : c ∈ (((p.data.reverse).dropWhile (· = '/')).takeWhile (· ≠ '/')).takeWhile
          (· ≠ '.') := List.mem_reverse.mp h
      have h2 := List.mem_takeWhile_imp (mem_takeWhile_mem h1)
      simpa using h2

theorem dropWhile_head_false (p : Char → Bool) (l : List Char) (x : Char) (xs : List Char)
    (h : l.dropWhile p = x :: xs) : p x = false := by
  induction l with
  | nil => simp [List.dropWhile] at h
  | cons c cs ih =>
    by_cases hpc : p c = true
    · rw [List.dropWhile_cons_of_pos hpc] at h
      exact ih h
    · rw [List.dropWhile_cons_of_neg (by simpa using hpc)] at h
      obtain ⟨rfl, -⟩ := List.cons.inj h
      simpa using hpc

/-- The plain basename is the extension-less basename with the extension
appended: `path.basename(p, path.extname(p)) + path.extname(p) =
path.basename(p)`, at the character level. -/
theorem basename2_extname_decomp (p : String) :
    (basename2 p (extname p)).data ++ (extname p).data = (basename p).data := by
  by_cases hext : extname p = ""
  · rw [hext]
    unfold basename2
    dsimp only
    rw [if_neg (by simp)]
    simp
  · -- the extension is nonempty: recover its structure from the definition
    unfold extname at hext
    dsimp only at hext
    split at hext
    · exact absurd rfl hext
    rename_i hlen1
    split at hext
    · exact absurd rfl hext
    rename_i hdd
    split at hext
    · exact absurd rfl hext
    rename_i hlen3
    have hextval : extname p = String.mk ('.' ::
        ((((p.data.reverse).dropWhile (· = '/')).takeWhile (· ≠ '/')).takeWhile
          (· ≠ '.')).reverse) := by
      unfold extname
      dsimp only
      rw [if_neg hlen1, if_neg hdd, if_neg hlen3]
    -- give names to the last component (reversed) and its dot-free head
    obtain ⟨portRev, hport⟩ :
        ∃ q, (((p.data.reverse).dropWhile (· = '/')).takeWhile (· ≠ '/')) = q := ⟨_, rfl⟩
    have hbase : (basename p).data = portRev.reverse := by
      rw [← hport]
      rfl
    rw [hport] at hlen1 hdd hlen3 hextval
    obtain ⟨afterDot, hafter⟩ : ∃ a, portRev.takeWhile (· ≠ '.') = a := ⟨_, rfl⟩
    rw [hafter] at hlen1 hlen3 hextval
    have hsplitP : afterDot ++ portRev.dropWhile (· ≠ '.') = portRev := by
      rw [← hafter]
      exact List.takeWhile_append_dropWhile _ _
    obtain ⟨x, rest, hxr⟩ : ∃ x rest, portRev.dropWhile (· ≠ '.') = x :: rest := by
      cases hdw : portRev.dropWhile (· ≠ '.') with
      | nil =>
        exfalso
        apply hlen1
        rw [← hsplitP, hdw, List.append_nil]
      | cons x rest => exact ⟨x, rest, rfl⟩
    have hxdot : x = '.' := by
      have := dropWhile_head_false _ _ _ _ hxr
      simpa using this
    subst hxdot
    have hrest : rest ≠ [] := by
      intro hr
      apply hlen3
      rw [← hsplitP, hxr, hr]
      simp
    have hbdata : (basename p).data = rest.reverse ++ '.' :: afterDot.reverse := by
      rw [hbase, ← hsplitP, hxr, List.reverse_append, List.reverse_cons,
        List.append_assoc]
      rfl
    -- evaluate basename2's guard
    have hsuf : (String.mk ('.' :: afterDot.reverse)).data.isSuffixOf
        (basename p).data = true := by
      rw [List.isSuffixOf_iff_suffix]
      exact ⟨rest.reverse, hbdata.symm⟩
    have hbne : basename p ≠ String.mk ('.' :: afterDot.reverse) := by
      intro hb
      have hd := congrArg String.data hb
      rw [hbdata] at hd
      have hrev : rest.reverse = [] := List.self_eq_append_left.mp hd.symm
      exact hrest (by simpa using hrev)
    rw [hextval]
    unfold basename2
    dsimp only
    rw [if_pos ⟨by intro hcon; exact absurd (congrArg String.data hcon) (by simp),
      hbne, hsuf⟩]
    show ((basename p).data.take _) ++ _ = _
    rw [hbdata]
    have hlen : (rest.reverse ++ '.' :: afterDot.reverse).length -
        (String.mk ('.' :: afterDot.reverse)).data.length = rest.reverse.length := by
      simp
    rw [hlen]
    rw [show ('.' :: afterDot.reverse) = (String.mk ('.' :: afterDot.reverse)).data from rfl]
    rw [List.take_left]

-- The planner's generated names are distinct from each other and the input --

theorem dirname_ne_empty (p : String) : dirname p ≠ "" := by
  unfold dirname
  dsimp only
  split
  · split <;> decide
  split
  · decide
  · rename_i h1 h2
    intro hcon
    exact h1 (congrArg String.data hcon)

/-- The basename of any name the planner joins onto the input's directory
(base + middle + extension, for a nonempty slash-free middle with some
non-dot character) is that name itself. -/
theorem basename_planner_join (p : String) (mid : List Char) (hmid : mid ≠ [])
    (hmids : ∀ c ∈ mid, c ≠ '/') (hch : ∃ c ∈ mid, c ≠ '.') :
    basename (join2 (dirname p)
      (String.mk ((basename2 p (extname p)).data ++ (mid ++ (extname p).data)))) =
    String.mk ((basename2 p (extname p)).data ++ (mid ++ (extname p).data)) := by
  apply join2_basename
  · exact dirname_ne_empty p
  · simp [hmid]
  · intro c hc
    rcases List.mem_append.mp hc with h | h
    · exact basename2_no_slash p _ c h
    rcases List.mem_append.mp h with h | h
    · exact hmids c h
    · exact extname_no_slash p c h
  · intro hdot
    obtain ⟨c, hcm, hc⟩ := hch
    have hc2 : c ∈ [('.' : Char)] :=
      hdot ▸ (List.mem_append_right _ (List.mem_append_left _ hcm))
    simp at hc2
    exact hc hc2
  · intro hdd
    obtain ⟨c, hcm, hc⟩ := hch
    have hc2 : c ∈ [('.' : Char), '.'] :=
      hdd ▸ (List.mem_append_right _ (List.mem_append_left _ hcm))
    simp at hc2
    exact hc hc2

/-- No planner-generated sibling name (nonempty middle) can collapse back
onto the input path itself: its basename would strictly extend the input's
basename. -/
theorem planner_join_ne_input (p : String) (mid : List Char) (hmid : mid ≠ [])
    (hmids : ∀ c ∈ mid, c ≠ '/') (hch : ∃ c ∈ mid, c ≠ '.') :
    join2 (dirname p)
      (String.mk ((basename2 p (extname p)).data ++ (mid ++ (extname p).data))) ≠ p := by
  intro h
  have hb := basename_planner_join p mid hmid hmids hch
  rw [h] at hb
  have hd := congrArg String.data hb
  rw [show (String.mk ((basename2 p (extname p)).data ++ (mid ++ (extname p).data))).data
    = (basename2 p (extname p)).data ++ (mid ++ (extname p).data) from rfl] at hd
  rw [← basename2_extname_decomp p] at hd
  have hcan := List.append_cancel_left hd
  exact hmid (List.self_eq_append_left.mp hcan)

theorem tmpPath_mk (p : String) (t : Nat) :
    tmpPath p t = join2 (dirname p) (String.mk ((basename2 p (extname p)).data ++
      ((".__tmp_".data ++ (natDec t).data) ++ (extname p).data))) := by
  unfold tmpPath
  congr 1
  apply String.ext
  simp [String.data_append, List.append_assoc]

theorem bakPath_mk (p : String) :
    bakPath p = join2 (dirname p) (String.mk ((basename2 p (extname p)).data ++
      (".bak".data ++ (extname p).data))) := by
  unfold bakPath
  congr 1
  apply String.ext
  simp [String.data_append, List.append_assoc]

theorem tmp_mid_no_slash (t : Nat) :
    ∀ c ∈ (".__tmp_".data ++ (natDec t).data), c ≠ '/' := by
  have hmk : ∀ c ∈ (".__tmp_".data : List Char), c ≠ '/' := by decide
  intro c hc
  rcases List.mem_append.mp hc with h | h
  · exact hmk c h
  · exact natDec_no_slash t c h

theorem tmpPath_ne_input (p : String) (t : Nat) : tmpPath p t ≠ p := by
  rw [tmpPath_mk]
  apply planner_join_ne_input
  · simp
  · exact tmp_mid_no_slash t
  · exact ⟨'_', List.mem_append_left _ (by decide), by decide⟩

theorem bakPath_ne_input (p : String) : bakPath p ≠ p := by
  rw [bakPath_mk]
  apply planner_join_ne_input
  · simp
  · exact fun c hc => (by decide : ∀ c ∈ (".bak".data : List Char), c ≠ '/') c hc
  · exact ⟨'b', by decide, by decide⟩

theorem tmpPath_ne_bakPath (p : String) (t : Nat) : tmpPath p t ≠ bakPath p := by
  rw [tmpPath_mk, bakPath_mk]
  intro h
  have hb1 := basename_planner_join p (".__tmp_".data ++ (natDec t).data)
    (by simp) (tmp_mid_no_slash t)
    ⟨'_', List.mem_append_left _ (by decide), by decide⟩
  have hb2 := basename_planner_join p (".bak".data)
    (by decide) (fun c hc => (by decide : ∀ c ∈ (".bak".data : List Char), c ≠ '/') c hc)
    ⟨'b', by decide, by decide⟩
  rw [h] at hb1
  have hd := congrArg String.data (hb1.symm.trans hb2)
  have hcan := List.append_cancel_left hd
  have hcan2 := List.append_cancel_right hcan
  have hfalse : ('.' :: '_' :: '_' :: 't' :: 'm' :: 'p' :: '_' :: (natDec t).data :
      List Char) = ['.', 'b', 'a', 'k'] := hcan2
  simp at hfalse

theorem tmpPath_time_inj (p : String) (t1 t2 : Nat)
    (h : tmpPath p t1 = tmpPath p t2) : t1 = t2 := by
  rw [tmpPath_mk, tmpPath_mk] at h
  have hb1 := basename_planner_join p (".__tmp_".data ++ (natDec t1).data)
    (by simp) (tmp_mid_no_slash t1)
    ⟨'_', List.mem_append_left _ (by decide), by decide⟩
  have hb2 := basename_planner_join p (".__tmp_".data ++ (natDec t2).data)
    (by simp) (tmp_mid_no_slash t2)
    ⟨'_', List.mem_append_left _ (by decide), by decide⟩
  rw [h] at hb1
  have hd := congrArg String.data (hb1.symm.trans hb2)
  have hcan := List.append_cancel_left hd
  have hcan2 := List.append_cancel_right hcan
  have hdig := List.append_cancel_left hcan2
  exact natDec_inj t1 t2 (String.ext hdig)

/-- C4 (amended): the in-place planner's temp path embeds the invocation's
`Date.now()` reading, so any two invocations on the same input that observe
distinct clock readings compute distinct temp paths (invocations observing
the same millisecond reading collide, as the counterexample shows, and no
check against files already on disk is performed). -/
theorem buildOutputPaths_tmp_time_injective (p s1 s2 : String) (t1 t2 : Nat)
    (hne : t1 ≠ t2) (tmp1 bak1 f1 tmp2 bak2 f2 : String)
    (h1 : buildOutputPaths p s1 true t1 = .inPlace tmp1 bak1 f1)
    (h2 : buildOutputPaths p s2 true t2 = .inPlace tmp2 bak2 f2) :
    tmp1 ≠ tmp2 := by
  have e1 : tmp1 = tmpPath p t1 := by
    have hh := h1.symm.trans
      (show buildOutputPaths p s1 true t1 = .inPlace (tmpPath p t1) (bakPath p) p
        from rfl)
    exact (OutputPaths.inPlace.inj hh).1
  have e2 : tmp2 = tmpPath p t2 := by
    have hh := h2.symm.trans
      (show buildOutputPaths p s2 true t2 = .inPlace (tmpPath p t2) (bakPath p) p
        from rfl)
    exact (OutputPaths.inPlace.inj hh).1
  rw [e1, e2]
  intro h
  exact hne (tmpPath_time_inj p t1 t2 h)

/-- Witness for C4 (amended) at two concrete clock readings. -/
theorem buildOutputPaths_tmp_time_injective_witness :
    ("a.__tmp_5.mp3" : String) ≠ "a.__tmp_6.mp3" :=
  buildOutputPaths_tmp_time_injective "a.mp3" "x" "y" 5 6 (by decide)
    "a.__tmp_5.mp3" "a.bak.mp3" "a.mp3" "a.__tmp_6.mp3" "a.bak.mp3" "a.mp3"
    (by decide) (by decide)

-- Pointwise facts about the filesystem operations ----------------------------

theorem FS.set_same (f : FS) (q : String) (v : Option Entry) : (FS.set f q v) q = v := by
  simp [FS.set]

theorem FS.set_other (f : FS) (q r : String) (v : Option Entry) (h : r ≠ q) :
    (FS.set f q v) r = f r := by
  simp [FS.set, h]

theorem tryUnlink_other (f : FS) (q r : String) (flag : Bool) (h : r ≠ q) :
    (tryUnlink f q flag).2 r = f r := by
  unfold tryUnlink
  split
  · simp [FS.del, h]
  · rfl

-- The finalize protocol: failure of the final rename --------------------------

theorem finalizeRename_fail (inputPath tmp bak final : String) (noBackup : Bool)
    (o : Oracle) (fs : FS) (tr : List Event)
    (hff : o.renameTmpToFinalOk = false) :
    (finalizeRename inputPath tmp bak final noBackup o fs tr).result.status = .error ∧
    (noBackup = false → (fs bak).isSome = true →
      ∃ rok, Event.renameOp bak inputPath rok ∈
        (finalizeRename inputPath tmp bak final noBackup o fs tr).trace) := by
  unfold finalizeRename
  rw [show tryRename fs tmp final o.renameTmpToFinalOk = (false, fs) from by
    simp [tryRename, hff]]
  dsimp only
  constructor
  · simp only [Bool.false_eq_true, if_false]
    split
    · split <;> rfl
    · rfl
  · intro hnb hbak
    subst hnb
    refine ⟨(tryRename fs bak inputPath o.renameBakRestoreOk).1, ?_⟩
    simp [hbak]

theorem finalizeRename_no_loss (inputPath tmp bak final : String) (noBackup : Bool)
    (o : Oracle) (fs : FS) (tr : List Event)
    (hsrc : (fs tmp).isSome = true) (hfin : final = inputPath) :
    ((finalizeRename inputPath tmp bak final noBackup o fs tr).fs inputPath).isSome = true ∨
    ((finalizeRename inputPath tmp bak final noBackup o fs tr).fs bak).isSome = true ∨
    ((finalizeRename inputPath tmp bak final noBackup o fs tr).fs tmp).isSome = true := by
  rw [hfin]
  unfold finalizeRename
  cases hflag : o.renameTmpToFinalOk with
  | true =>
    left
    rw [show tryRename fs tmp inputPath true =
      (true, fs.mv tmp inputPath) from by simp [tryRename, hsrc]]
    simp [FS.mv, hsrc]
  | false =>
    rw [show tryRename fs tmp inputPath false = (false, fs) from by
      simp [tryRename]]
    dsimp only
    simp only [Bool.false_eq_true, if_false]
    by_cases hnb : noBackup = true
    · simp only [hnb, Bool.not_true, if_false]
      exact Or.inr (Or.inr hsrc)
    · simp only [Bool.not_eq_true] at hnb
      simp only [hnb, Bool.not_false, if_true]
      by_cases hbk : (fs bak).isSome = true
      · rw [if_pos (by simp [hbk])]
        cases hres : o.renameBakRestoreOk with
        | true =>
          left
          rw [show tryRename fs bak inputPath true =
            (true, fs.mv bak inputPath) from by simp [tryRename, hbk]]
          simp [FS.mv, hbk]
        | false =>
          right; left
          rw [show tryRename fs bak inputPath false = (false, fs) from by
            simp [tryRename]]
          exact hbk
      · rw [if_neg (by simpa using hbk)]
        exact Or.inr (Or.inr hsrc)

theorem finalizeInPlace_fail_error (inputPath tmp bak final : String) (noBackup : Bool)
    (o : Oracle) (fs : FS) (tr : List Event)
    (hin : (fs inputPath).isSome = true)
    (hstep : cond noBackup o.unlinkOriginalOk o.renameToBakOk = true)
    (hff : o.renameTmpToFinalOk = false) :
    (finalizeInPlace inputPath tmp bak final noBackup o fs tr).result.status = .error ∧
    (noBackup = false →
      ∃ rok, Event.renameOp bak inputPath rok ∈
        (finalizeInPlace inputPath tmp bak final noBackup o fs tr).trace) := by
  cases hnb : noBackup with
  | false =>
    rw [hnb] at hstep
    simp only [cond_false] at hstep
    unfold finalizeInPlace
    simp only [Bool.not_false, if_true]
    rw [show tryRename fs inputPath bak o.renameToBakOk =
      (true, fs.mv inputPath bak) from by simp [tryRename, hstep, hin]]
    dsimp only
    have hbak2 : ((fs.mv inputPath bak) bak).isSome = true := by
      simp [FS.mv, hin]
    have h := fun tr2 => finalizeRename_fail inputPath tmp bak final false o
      (fs.mv inputPath bak) tr2 hff
    exact ⟨(h _).1, fun _ => (h _).2 rfl hbak2⟩
  | true =>
    rw [hnb] at hstep
    simp only [cond_true] at hstep
    unfold finalizeInPlace
    simp only [Bool.not_true, if_false]
    rw [show tryUnlink fs inputPath o.unlinkOriginalOk =
      (true, fs.del inputPath) from by simp [tryUnlink, hstep, hin]]
    dsimp only
    have h := fun tr2 => finalizeRename_fail inputPath tmp bak final true o
      (fs.del inputPath) tr2 hff
    exact ⟨(h _).1, fun hcon => nomatch hcon⟩

theorem finalizeInPlace_no_loss (inputPath tmp bak final : String) (noBackup : Bool)
    (o : Oracle) (fs : FS) (tr : List Event)
    (hsrc : (fs tmp).isSome = true) (hin : (fs inputPath).isSome = true)
    (hfin : final = inputPath) (hti : tmp ≠ inputPath) (htb : tmp ≠ bak) :
    ((finalizeInPlace inputPath tmp bak final noBackup o fs tr).fs inputPath).isSome = true ∨
    ((finalizeInPlace inputPath tmp bak final noBackup o fs tr).fs bak).isSome = true ∨
    ((finalizeInPlace inputPath tmp bak final noBackup o fs tr).fs tmp).isSome = true := by
  cases hnb : noBackup with
  | false =>
    unfold finalizeInPlace
    simp only [Bool.not_false, if_true]
    cases hflag : o.renameToBakOk with
    | true =>
      rw [show tryRename fs inputPath bak true =
        (true, fs.mv inputPath bak) from by simp [tryRename, hin]]
      dsimp only
      apply finalizeRename_no_loss
      · simp [FS.mv, htb, hti, hsrc]
      · exact hfin
    | false =>
      rw [show tryRename fs inputPath bak false = (false, fs) from by
        simp [tryRename]]
      dsimp only
      simp only [Bool.false_eq_true, if_false]
      left
      show ((tryUnlink fs tmp o.unlinkTmpAfterBakFailOk).2 inputPath).isSome = true
      rw [tryUnlink_other fs tmp inputPath _ (Ne.symm hti)]
      exact hin
  | true =>
    unfold finalizeInPlace
    simp only [Bool.not_true, if_false]
    cases hflag : o.unlinkOriginalOk with
    | true =>
      rw [show tryUnlink fs inputPath true =
        (true, fs.del inputPath) from by simp [tryUnlink, hin]]
      dsimp only
      apply finalizeRename_no_loss
      · simp [FS.del, hti, hsrc]
      · exact hfin
    | false =>
      rw [show tryUnlink fs inputPath false = (false, fs) from by
        simp [tryUnlink]]
      dsimp only
      simp only [Bool.false_eq_true, if_false]
      left
      show ((tryUnlink fs tmp o.unlinkTmpAfterUnlinkFailOk).2 inputPath).isSome = true
      rw [tryUnlink_other fs tmp inputPath _ (Ne.symm hti)]
      exact hin

/-- C1: in in-place mode on an existing regular file, (first conjunct) when
the run reaches the finalize step and the final rename of the temp output
onto the original path fails, `trimFile` returns status `error`, and — when
backups were enabled, the backup file existing at that moment — it first
attempts a best-effort rename of the backup back onto the original path,
the result being `error` regardless of that restore's outcome; and (second
conjunct, holding for every outcome of every external operation) on no
execution path does the run end with the original path, the backup path and
the temp path all missing from disk — the original is never silently lost
with neither a backup nor a temp file remaining. -/
theorem trimFile_inplace_rename_fail_safe (p : String) (opts : TrimOptions) (fs0 : FS)
    (o : Oracle) (now : Nat) (c : Nat)
    (hip : opts.inPlace = true)
    (hfile : fs0 p = some (.file c)) :
    (o.statThrows = false →
      SUPPORTED_EXTS.contains (lowerStr (extname p)) = true →
      o.ffmpegOk = true →
      cond opts.noBackup o.unlinkOriginalOk o.renameToBakOk = true →
      o.renameTmpToFinalOk = false →
      (trimFile p opts fs0 o now).result.status = .error ∧
      (opts.noBackup = false →
        ∃ rok, Event.renameOp (bakPath p) p rok ∈ (trimFile p opts fs0 o now).trace)) ∧
    (((trimFile p opts fs0 o now).fs p).isSome = true ∨
     ((trimFile p opts fs0 o now).fs (bakPath p)).isSome = true ∨
     ((trimFile p opts fs0 o now).fs (tmpPath p now)).isSome = true) := by
  have hb : buildOutputPaths p opts.suffix opts.inPlace now =
      .inPlace (tmpPath p now) (bakPath p) p := by
    rw [hip]
    rfl
  have hnetp : p ≠ tmpPath p now := Ne.symm (tmpPath_ne_input p now)
  have hin1 : ((FS.set fs0 (tmpPath p now) (some (.file o.outContent))) p).isSome
      = true := by
    rw [FS.set_other _ _ _ _ hnetp, hfile]
    rfl
  constructor
  · intro hstat hext hffm hstep hff
    have hext' : lowerStr (extname p) ∈ SUPPORTED_EXTS := by simpa using hext
    have hred : trimFile p opts fs0 o now =
        finalizeInPlace p (tmpPath p now) (bakPath p) p opts.noBackup o
          (FS.set fs0 (tmpPath p now) (some (.file o.outContent)))
          [Event.statOp p, Event.spawnProbe (probeArgs p),
            Event.spawnFfmpeg (ffmpegArgs p
              (silenceremoveFilter opts.thresholdDb opts.startSeconds opts.stopSeconds)
              (codecArgsFor (lowerStr (extname p)) (getAudioStreamInfo o p))
              (tmpPath p now))] := by
      simp [trimFile, hstat, hfile, hext', hffm, hb]
    rw [hred]
    exact finalizeInPlace_fail_error p (tmpPath p now) (bakPath p) p opts.noBackup o
      _ _ hin1 hstep hff
  · cases hs : o.statThrows with
    | true =>
      left
      simp [trimFile, hs, hfile]
    | false =>
      cases hext : SUPPORTED_EXTS.contains (lowerStr (extname p)) with
      | false =>
        have hext' : ¬ lowerStr (extname p) ∈ SUPPORTED_EXTS := by simpa using hext
        left
        simp [trimFile, hs, hfile, hext']
      | true =>
        have hext' : lowerStr (extname p) ∈ SUPPORTED_EXTS := by simpa using hext
        cases hffm : o.ffmpegOk with
        | true =>
          have hred : trimFile p opts fs0 o now =
              finalizeInPlace p (tmpPath p now) (bakPath p) p opts.noBackup o
                (FS.set fs0 (tmpPath p now) (some (.file o.outContent)))
                [Event.statOp p, Event.spawnProbe (probeArgs p),
                  Event.spawnFfmpeg (ffmpegArgs p
                    (silenceremoveFilter opts.thresholdDb opts.startSeconds
                      opts.stopSeconds)
                    (codecArgsFor (lowerStr (extname p)) (getAudioStreamInfo o p))
                    (tmpPath p now))] := by
            simp [trimFile, hs, hfile, hext', hffm, hb]
          rw [hred]
          exact finalizeInPlace_no_loss p (tmpPath p now) (bakPath p) p opts.noBackup o
            _ _ (by rw [FS.set_same]; rfl) hin1 rfl (tmpPath_ne_input p now)
            (tmpPath_ne_bakPath p now)
        | false =>
          left
          cases hlp : o.ffmpegLeavesPartial with
          | true =>
            simp only [trimFile, hs, hfile, hext, hffm, hlp, hb, Bool.not_true,
              Bool.false_eq_true, if_false, if_true]
            split
            · dsimp only
              rw [tryUnlink_other _ _ _ _ hnetp, FS.set_other _ _ _ _ hnetp, hfile]
              rfl
            · dsimp only
              rw [FS.set_other _ _ _ _ hnetp, hfile]
              rfl
          | false =>
            simp only [trimFile, hs, hfile, hext, hffm, hlp, hb, Bool.not_true,
              Bool.false_eq_true, if_false, if_true]
            split
            · dsimp only
              rw [tryUnlink_other _ _ _ _ hnetp, hfile]
              rfl
            · dsimp only
              rw [hfile]
              rfl

/-- Witness for C1 at a concrete in-place run whose final rename fails but
whose backup restore succeeds. -/
theorem trimFile_inplace_rename_fail_safe_witness :
    ((trimFile "a.mp3" { inPlace := true }
        (fun q => if q = "a.mp3" then some (Entry.file 3) else none)
        { renameTmpToFinalOk := false } 5).result.status = .error ∧
      ((false : Bool) = false →
        ∃ rok, Event.renameOp (bakPath "a.mp3") "a.mp3" rok ∈
          (trimFile "a.mp3" { inPlace := true }
            (fun q => if q = "a.mp3" then some (Entry.file 3) else none)
            { renameTmpToFinalOk := false } 5).trace)) ∧
    (((trimFile "a.mp3" { inPlace := true }
        (fun q => if q = "a.mp3" then some (Entry.file 3) else none)
        { renameTmpToFinalOk := false } 5).fs "a.mp3").isSome = true ∨
     ((trimFile "a.mp3" { inPlace := true }
        (fun q => if q = "a.mp3" then some (Entry.file 3) else none)
        { renameTmpToFinalOk := false } 5).fs (bakPath "a.mp3")).isSome = true ∨
     ((trimFile "a.mp3" { inPlace := true }
        (fun q => if q = "a.mp3" then some (Entry.file 3) else none)
        { renameTmpToFinalOk := false } 5).fs (tmpPath "a.mp3" 5)).isSome = true) := by
  have h := trimFile_inplace_rename_fail_safe "a.mp3" { inPlace := true }
    (fun q => if q = "a.mp3" then some (Entry.file 3) else none)
    { renameTmpToFinalOk := false } 5 3 rfl (by decide)
  exact ⟨h.1 rfl (by decide) rfl rfl rfl, h.2⟩

end AudioTrim
